import Mathlib

/-!
Verification of the camera / point-cloud utility module (`vision_toolbox/utils.py`).

The Python module is shallowly embedded here:
* points are triples of rationals (`Pt`), depth maps are functions `ℕ → ℕ → ℚ`
  together with explicit height/width bounds;
* `numpy.round` (round half to even) is embedded as `roundHE` on `ℚ` and
  `roundR` on `ℝ`;
* the `np.inf` initialisation of the flat depth buffer is modelled by `WithTop ℚ`
  (`⊤` = never written), and `np.minimum.at` by the per-index list minimum;
* trigonometric intrinsic computations are embedded over `ℝ`;
* functions that raise (`ValueError`, `AssertionError`) return `Except`.
-/

/-- Embedding of `numpy.round` on rationals: round half to even. -/
def roundHE (q : ℚ) : ℤ :=
  if q - q.floor < 1/2 then q.floor
  else if 1/2 < q - q.floor then q.floor + 1
  else if q.floor % 2 = 0 then q.floor else q.floor + 1

/-- Embedding of `numpy.round` on reals: round half to even. -/
noncomputable def roundR (x : ℝ) : ℤ :=
  if x - ⌊x⌋ < 1/2 then ⌊x⌋
  else if 1/2 < x - ⌊x⌋ then ⌊x⌋ + 1
  else if ⌊x⌋ % 2 = 0 then ⌊x⌋ else ⌊x⌋ + 1

theorem ratFloor_eq_intFloor (q : ℚ) : q.floor = ⌊q⌋ := by
  rw [Rat.floor_def', Rat.floor_def]

/-- The function `roundHE` written with the ambient `Int.floor` (for symbolic reasoning). -/
theorem roundHE_def (q : ℚ) :
    roundHE q =
      if q - ⌊q⌋ < 1/2 then ⌊q⌋
      else if 1/2 < q - ⌊q⌋ then ⌊q⌋ + 1
      else if ⌊q⌋ % 2 = 0 then ⌊q⌋ else ⌊q⌋ + 1 := by
  rw [roundHE, ratFloor_eq_intFloor]

theorem roundHE_intCast (n : ℤ) : roundHE (n : ℚ) = n := by
  rw [roundHE_def]
  norm_num

theorem roundHE_natCast (n : ℕ) : roundHE (n : ℚ) = n := by
  have h : ((n : ℤ) : ℚ) = (n : ℚ) := by push_cast; ring
  rw [← h, roundHE_intCast]

/-- A 3D point (x, y, z). -/
abbrev Pt := ℚ × ℚ × ℚ

namespace Camera_Process

/-! ### Back-projection: `Get_pts_from` -/

/-- All `(y, x)` pixel indices of an `h × w` grid in row-major order (the
`np.meshgrid(..., indexing='ij')` enumeration order). -/
def pixGrid (h w : ℕ) : List (ℕ × ℕ) :=
  (List.range h).flatMap fun y => (List.range w).map fun x => (y, x)

/-- Row-major list of the valid `(y, x)` pixel indices of an `h × w` mask, in the
order numpy boolean-mask indexing enumerates them. -/
def maskIdx (h w : ℕ) (mask : ℕ → ℕ → Bool) : List (ℕ × ℕ) :=
  (pixGrid h w).filter fun p => mask p.1 p.2

/-- Strict row-major (lexicographic) order on pixel indices `(y, x)`:
earlier row, or same row and earlier column. -/
def pixLt (p q : ℕ × ℕ) : Prop :=
  p.1 < q.1 ∨ (p.1 = q.1 ∧ p.2 < q.2)

/-- Embeds `Camera_Process.Get_pts_from`: back-projects a depth map to the point list
`np.c_[xx[mask] * d, yy[mask] * d, d]` where `xx, yy` is the meshgrid of pixel
coordinates and `d` the masked depth values. -/
def Get_pts_from (d : ℕ → ℕ → ℚ) (h w : ℕ) (mask : ℕ → ℕ → Bool) : List Pt :=
  let idx := maskIdx h w mask
  let dm := idx.map fun p => d p.1 p.2
  let xx := idx.map fun p => ((p.2 : ℚ))
  let yy := idx.map fun p => ((p.1 : ℚ))
  (List.zipWith (· * ·) xx dm).zip ((List.zipWith (· * ·) yy dm).zip dm)

/-! ### Forward projection: `Get_depth_map_from` -/

/-- Points kept by the visibility filter `pts[pts[:, 2] > 0]`. -/
def visiblePts (pts : List Pt) : List Pt := pts.filter fun p => 0 < p.2.2

/-- Perspective divide and pixel rounding of one visible point:
`(round(x/z), round(y/z), z)`. -/
def projPix (p : Pt) : ℤ × ℤ × ℚ :=
  (roundHE (p.1 / p.2.2), roundHE (p.2.1 / p.2.2), p.2.2)

/-- The projected points surviving the in-bounds mask
`(u >= 0) & (u < w) & (v >= 0) & (v < h)`. -/
def maskedPix (pts : List Pt) (w h : ℕ) : List (ℤ × ℤ × ℚ) :=
  ((visiblePts pts).map projPix).filter fun q =>
    decide (0 ≤ q.1 ∧ q.1 < (w : ℤ) ∧ 0 ≤ q.2.1 ∧ q.2.1 < (h : ℤ))

/-- The flat depth buffer after `np.minimum.at`: the running minimum of the
depths written at flat index `idx = v * w + u`, starting from `np.inf` (= `⊤`). -/
def dFlat (pts : List Pt) (w h : ℕ) (idx : ℕ) : WithTop ℚ :=
  ((maskedPix pts w h).filterMap fun q =>
    if q.2.1.toNat * w + q.1.toNat = idx then some q.2.2 else none).minimum

/-- Embeds `Camera_Process.Get_depth_map_from`: forward projection with per-pixel
minimum-depth occlusion resolution; `nan_to_num` sends the `⊤` (= `np.inf`)
sentinel to `0` and the final pass clamps negative entries to `0`. -/
def Get_depth_map_from (pts : List Pt) (w h : ℕ) : ℕ → ℕ → ℚ := fun v u =>
  let z := (dFlat pts w h (v * w + u)).untop' 0
  if z < 0 then 0 else z

/-- The depths that the specification says contribute to pixel `(u, v)`:
points with `z > 0` whose rounded perspective projection is `(u, v)`. -/
def contribZ (pts : List Pt) (u v : ℕ) : List ℚ :=
  pts.filterMap fun p =>
    if 0 < p.2.2 ∧ roundHE (p.1 / p.2.2) = (u : ℤ) ∧ roundHE (p.2.1 / p.2.2) = (v : ℤ)
    then some p.2.2 else none

/-! ### Intrinsic model (embedded over ℝ) -/

/-- Embedding of `np.arctan2`: the four-quadrant arctangent. -/
noncomputable def atan2 (y x : ℝ) : ℝ :=
  if 0 < x then Real.arctan (y / x)
  else if x < 0 ∧ 0 ≤ y then Real.arctan (y / x) + Real.pi
  else if x < 0 ∧ y < 0 then Real.arctan (y / x) - Real.pi
  else if x = 0 ∧ 0 < y then Real.pi / 2
  else if x = 0 ∧ y < 0 then -(Real.pi / 2)
  else 0

/-- Embeds `Camera_Process.Get_focal_length_from`: `size / (2 * tan(fov / 2))`,
element-wise per axis. -/
noncomputable def Get_focal_length_from (fov size : ℝ × ℝ) : ℝ × ℝ :=
  (size.1 / (2 * Real.tan (fov.1 / 2)), size.2 / (2 * Real.tan (fov.2 / 2)))

/-- Embeds `Camera_Process.Get_size_from`: `2 * np.round(tan(fov / 2) * f_length)`,
element-wise per axis (note: the rounding happens before the doubling). -/
noncomputable def Get_size_from (fov f_length : ℝ × ℝ) : ℤ × ℤ :=
  (2 * roundR (Real.tan (fov.1 / 2) * f_length.1),
   2 * roundR (Real.tan (fov.2 / 2) * f_length.2))

/-- Embeds `Camera_Process.Get_fov_from`: `2 * arctan2(size / 2, f_length)`,
element-wise per axis. -/
noncomputable def Get_fov_from (size f_length : ℝ × ℝ) : ℝ × ℝ :=
  (2 * atan2 (size.1 / 2) f_length.1, 2 * atan2 (size.2 / 2) f_length.2)

/-- Embeds `Camera_Process.Get_pp_from`: principal point from its rate: `size * rate`. -/
noncomputable def Get_pp_from (rate size : ℝ × ℝ) : ℝ × ℝ :=
  (size.1 * rate.1, size.2 * rate.2)

/-- Embeds `Camera_Process.Get_pp_rate_from`: principal-point rate: `pp / size`. -/
noncomputable def Get_pp_rate_from (pp size : ℝ × ℝ) : ℝ × ℝ :=
  (pp.1 / size.1, pp.2 / size.2)

/-- Embeds `Camera_Process.Compose_intrinsic`, unbatched branch: `np.eye(3)` with
`(f, pp)` written to entries `(0,0),(1,1),(0,2),(1,2)`. -/
def Compose_intrinsic (f_length pp : ℝ × ℝ) : Matrix (Fin 3) (Fin 3) ℝ :=
  !![f_length.1, 0, pp.1; 0, f_length.2, pp.2; 0, 0, 1]

/-- Embeds `Camera_Process.Extract_intrinsic`, unbatched branch: reads `(f, pp)` back
off the entries `(0,0),(1,1),(0,2),(1,2)`. -/
def Extract_intrinsic (intrinsic : Matrix (Fin 3) (Fin 3) ℝ) :
    (ℝ × ℝ) × (ℝ × ℝ) :=
  ((intrinsic 0 0, intrinsic 1 1), (intrinsic 0 2, intrinsic 1 2))

/-- Embeds `Camera_Process.Adjust_intrinsic`: recover `(fov, pp rate)` at the old size
and recompose focal length and principal point at the new size. -/
noncomputable def Adjust_intrinsic (intrinsic : Matrix (Fin 3) (Fin 3) ℝ)
    (size new_size : ℝ × ℝ) : Matrix (Fin 3) (Fin 3) ℝ :=
  Compose_intrinsic
    (Get_focal_length_from (Get_fov_from size (Extract_intrinsic intrinsic).1) new_size)
    (Get_pp_from (Get_pp_rate_from (Extract_intrinsic intrinsic).2 size) new_size)

end Camera_Process

namespace Convert

/-- Embeds `Convert.To_homog` for one 3-component row: append a trailing `1`. -/
def To_homog (p : ℚ × ℚ × ℚ) : Fin 4 → ℚ := ![p.1, p.2.1, p.2.2, 1]

namespace Rotation

/-- Embeds `Convert.Rotation.Q_to_M` (scipy `from_quat(..., scalar_first=True)`, which
normalises the quaternion, then `as_matrix()`): the rotation matrix of the
quaternion `(w, x, y, z)`. -/
def Q_to_M : ℚ × ℚ × ℚ × ℚ → Matrix (Fin 3) (Fin 3) ℚ
  | (w, x, y, z) =>
    ((w^2 + x^2 + y^2 + z^2)⁻¹) •
      !![w^2 + x^2 - y^2 - z^2, 2*(x*y - w*z), 2*(x*z + w*y);
         2*(x*y + w*z), w^2 - x^2 + y^2 - z^2, 2*(y*z - w*x);
         2*(x*z - w*y), 2*(y*z + w*x), w^2 - x^2 - y^2 + z^2]

end Rotation

end Convert

/-- A numpy operand that is either one vector (`ndim = 1`) or a batch of
vectors with a leading dimension (`ndim = 2`). -/
inductive BArr (α : Type)
  | single (v : α)
  | batch (l : List α)

/-- The `ndim` of a `BArr` operand. -/
def BArr.ndim {α : Type} : BArr α → ℕ
  | .single _ => 1
  | .batch _ => 2

/-- The `shape[0]` of a `BArr` operand whose base vectors have `base` components:
the base length when unbatched, the batch size otherwise. -/
def BArr.shape0 {α : Type} (base : ℕ) : BArr α → ℕ
  | .single _ => base
  | .batch l => l.length

namespace Camera_Process

/-- One pinhole intrinsic over ℚ: `np.eye(3)` with `(f, pp)` written to
entries `(0,0),(1,1),(0,2),(1,2)` (the per-row body of `Compose_intrinsic`). -/
def intrinsicOf (f pp : ℚ × ℚ) : Matrix (Fin 3) (Fin 3) ℚ :=
  !![f.1, 0, pp.1; 0, f.2, pp.2; 0, 0, 1]

/-- Embeds `Camera_Process.Compose_intrinsic` with its shape guard: raises `ValueError`
iff `f_length.ndim != pp.ndim or f_length.shape[0] != pp.shape[0]`
(`shape[0]` of an unbatched 2-vector is `2`). -/
def Compose_intrinsicB (f_length pp : BArr (ℚ × ℚ)) :
    Except String (BArr (Matrix (Fin 3) (Fin 3) ℚ)) :=
  if f_length.ndim ≠ pp.ndim ∨ f_length.shape0 2 ≠ pp.shape0 2 then
    Except.error "ValueError"
  else
    match f_length, pp with
    | .single f, .single p => Except.ok (.single (intrinsicOf f p))
    | .batch fl, .batch pl => Except.ok (.batch (List.zipWith intrinsicOf fl pl))
    | _, _ => Except.error "ValueError"

end Camera_Process

namespace Space_process

/-- The left-to-right handedness swap transform `L2R`. -/
def L2R : Matrix (Fin 4) (Fin 4) ℚ :=
  !![0, 1, 0, 0; 1, 0, 0, 0; 0, 0, -1, 0; 0, 0, 0, 1]

/-- Input points of `Apply_extrinsic`: an `(n, 3)` array (each row lifted to
homogeneous form) or an `(n, 4)` array (taken unchanged). -/
inductive PtsInput
  | vec3 (l : List (ℚ × ℚ × ℚ))
  | vec4 (l : List (Fin 4 → ℚ))

/-- The homogeneous rows `_pts` actually fed to the einsum:
`To_homog(pts) if pts.shape[1] == 3 else pts`. -/
def PtsInput.lift : PtsInput → List (Fin 4 → ℚ)
  | .vec3 l => l.map Convert.To_homog
  | .vec4 l => l

/-- Embeds `Space_process.Apply_extrinsic`: optionally invert each 4×4 transform, keep
its top three rows, and evaluate `np.einsum("bjk, nk -> bnk", ex, pts)` — the
sum runs over the row index `j` of each 3×4 block and the output keeps the
component index `k`, so entry `(b, n, k)` is `pts[n, k] * (ex[b, 0, k] +
ex[b, 1, k] + ex[b, 2, k])`. -/
def Apply_extrinsic (pts : PtsInput) (extrinsic : List (Matrix (Fin 4) (Fin 4) ℚ))
    (apply_inv : Bool) : List (List (Fin 4 → ℚ)) :=
  let ex := if apply_inv then extrinsic.map fun E => (E.det)⁻¹ • E.adjugate
    else extrinsic
  ex.map fun E => pts.lift.map fun p => fun k => (E 0 k + E 1 k + E 2 k) * p k

/-- The operation the specification describes for `Apply_extrinsic`: row `i` of
the result for transform `E` and point `p` is `(R p + t)_i`, the `i`-th
component of `E · homog(p)`. -/
def Apply_extrinsic_spec (E : Matrix (Fin 4) (Fin 4) ℚ) (p : ℚ × ℚ × ℚ) :
    Fin 3 → ℚ :=
  fun i => ∑ k : Fin 4, E i.castSucc k * Convert.To_homog p k

/-- Input of `Hand_change`: a 2-D array of points or a single 4×4 transform. -/
inductive HandObj
  | pts (l : PtsInput)
  | tp (m : Matrix (Fin 4) (Fin 4) ℚ)

/-- The `mode` literal of `Hand_change` (`"L2R"` or `"R2L"`). -/
inductive HandMode
  | L2R
  | R2L

/-- Embeds `Space_process.Hand_change`: `assert mode == "L2R"` fails with
`AssertionError` on the unsupported reverse mode; otherwise points are pushed
through `Apply_extrinsic` with the single transform `L2R` (first batch row,
first three components), and a 4×4 transform is premultiplied by `L2R`. -/
def Hand_change (obj : HandObj) (mode : HandMode) : Except String HandObj :=
  match mode with
  | .R2L => Except.error "AssertionError: mode: R2L is not yet"
  | .L2R =>
    match obj with
    | .pts p => Except.ok (.pts (.vec3
        (((Apply_extrinsic p [L2R] false).headD []).map fun q => (q 0, q 1, q 2))))
    | .tp m => Except.ok (.tp (L2R * m))

/-- A scalar-first quaternion `(w, x, y, z)`. -/
abbrev Quat := ℚ × ℚ × ℚ × ℚ

/-- One 4×4 extrinsic over ℚ: `np.eye(4)` with the rotation of `q` written to
`[:3, :3]` and `t` to `[:3, 3]` (the per-row body of `Compose_extrinsic`). -/
def extrinsicOf (q : Quat) (t : ℚ × ℚ × ℚ) : Matrix (Fin 4) (Fin 4) ℚ :=
  let m := Convert.Rotation.Q_to_M q
  !![m 0 0, m 0 1, m 0 2, t.1;
     m 1 0, m 1 1, m 1 2, t.2.1;
     m 2 0, m 2 1, m 2 2, t.2.2;
     0, 0, 0, 1]

/-- Embeds `Space_process.Compose_extrinsic` with its shape guard: raises `ValueError`
iff `q.ndim != tf.ndim or (q.ndim >= 2 and q.shape[0] != tf.shape[0])` — note
the batch-size comparison only happens for batched input. -/
def Compose_extrinsic (q : BArr Quat) (tf : BArr (ℚ × ℚ × ℚ)) :
    Except String (BArr (Matrix (Fin 4) (Fin 4) ℚ)) :=
  if q.ndim ≠ tf.ndim ∨ (2 ≤ q.ndim ∧ q.shape0 4 ≠ tf.shape0 3) then
    Except.error "ValueError"
  else
    match q, tf with
    | .single qv, .single t => Except.ok (.single (extrinsicOf qv t))
    | .batch ql, .batch tl => Except.ok (.batch (List.zipWith extrinsicOf ql tl))
    | _, _ => Except.error "ValueError"

/-- Quantisation of one row by `precision` decimal digits:
`(row * 10^precision).round().astype(int)`. -/
def quantizeRow (precision : ℕ) (p : ℚ × ℚ × ℚ) : ℤ × ℤ × ℤ :=
  (roundHE (p.1 * 10 ^ precision), roundHE (p.2.1 * 10 ^ precision),
   roundHE (p.2.2 * 10 ^ precision))

/-- Strict lexicographic order on quantised rows — the order `np.unique`
sorts rows into. -/
def rowLt (a b : ℤ × ℤ × ℤ) : Prop :=
  a.1 < b.1 ∨ (a.1 = b.1 ∧ (a.2.1 < b.2.1 ∨ (a.2.1 = b.2.1 ∧ a.2.2 < b.2.2)))

/-- Reflexive closure of `rowLt`. -/
def rowLe (a b : ℤ × ℤ × ℤ) : Prop := rowLt a b ∨ a = b

instance : DecidableRel rowLt := fun a b =>
  inferInstanceAs (Decidable (a.1 < b.1 ∨
    (a.1 = b.1 ∧ (a.2.1 < b.2.1 ∨ (a.2.1 = b.2.1 ∧ a.2.2 < b.2.2)))))

instance : DecidableRel rowLe := fun a b =>
  inferInstanceAs (Decidable (rowLt a b ∨ a = b))

/-- Comparison of `(quantised row, index)` pairs by their row. -/
def pairLe (a b : (ℤ × ℤ × ℤ) × ℕ) : Prop := rowLe a.1 b.1

instance : DecidableRel pairLe := fun a b =>
  inferInstanceAs (Decidable (rowLe a.1 b.1))

instance : IsTotal ((ℤ × ℤ × ℤ) × ℕ) pairLe :=
  ⟨fun a b => by unfold pairLe rowLe rowLt; simp only [Prod.ext_iff]; omega⟩

instance : IsTrans ((ℤ × ℤ × ℤ) × ℕ) pairLe :=
  ⟨fun a b c => by unfold pairLe rowLe rowLt; simp only [Prod.ext_iff]; omega⟩

/-- The indices `np.unique(..., axis=0, return_index=True)` selects: positions
whose row has no equal row strictly earlier (first occurrences). -/
def firstOccIdx (keys : List (ℤ × ℤ × ℤ)) : List ℕ :=
  (List.range keys.length).filter fun i =>
    decide (∀ j < i, keys.getD j (0, 0, 0) ≠ keys.getD i (0, 0, 0))

/-- Embeds `Space_process.Remove_duplicate`: quantise the rows, apply `np.unique`
(first-occurrence indices, listed in the sorted order of the unique quantised
rows), and return the original rows at those indices plus the indices. -/
def Remove_duplicate (data : List (ℚ × ℚ × ℚ)) (precision : ℕ) :
    List (ℚ × ℚ × ℚ) × List ℕ :=
  let keys := data.map (quantizeRow precision)
  let occ := (firstOccIdx keys).map fun i => (keys.getD i (0, 0, 0), i)
  let sorted := occ.insertionSort pairLe
  (sorted.map fun s => data.getD s.2 (0, 0, 0), sorted.map fun s => s.2)

/-- The behaviour claim C4 describes: the deduplicated rows listed in order of
first appearance in the input (not in sorted-row order). Kept only to compare
against the implemented `Remove_duplicate`. -/
def Remove_duplicate_claimed (data : List (ℚ × ℚ × ℚ)) (precision : ℕ) :
    List (ℚ × ℚ × ℚ) × List ℕ :=
  let keys := data.map (quantizeRow precision)
  ((firstOccIdx keys).map fun i => data.getD i (0, 0, 0), firstOccIdx keys)

end Space_process

namespace Camera_Process

/-! Auxiliary facts about the forward-projection pipeline. -/

theorem flatIdx_eq_iff {w u u' v v' : ℕ} (hu : u < w) (hu' : u' < w) :
    v' * w + u' = v * w + u ↔ u' = u ∧ v' = v := by
  constructor
  · intro hEq
    have hw : 0 < w := Nat.lt_of_le_of_lt (Nat.zero_le u) hu
    have h1 : (v' * w + u') % w = (v * w + u) % w := by rw [hEq]
    rw [Nat.mul_comm v' w, Nat.mul_comm v w] at hEq h1
    rw [Nat.mul_add_mod, Nat.mul_add_mod, Nat.mod_eq_of_lt hu', Nat.mod_eq_of_lt hu] at h1
    subst h1
    have h2 : w * v' = w * v := Nat.add_right_cancel hEq
    exact ⟨rfl, Nat.eq_of_mul_eq_mul_left hw h2⟩
  · rintro ⟨rfl, rfl⟩; rfl

theorem maskedPix_eq_filterMap (pts : List Pt) (w h : ℕ) :
    maskedPix pts w h = pts.filterMap fun p =>
      if 0 < p.2.2 ∧ 0 ≤ (projPix p).1 ∧ (projPix p).1 < (w : ℤ) ∧
          0 ≤ (projPix p).2.1 ∧ (projPix p).2.1 < (h : ℤ)
      then some (projPix p) else none := by
  induction pts with
  | nil => rfl
  | cons p rest ih =>
    simp only [maskedPix, visiblePts] at ih ⊢
    by_cases hz : 0 < p.2.2
    · by_cases hb : 0 ≤ (projPix p).1 ∧ (projPix p).1 < (w : ℤ) ∧
          0 ≤ (projPix p).2.1 ∧ (projPix p).2.1 < (h : ℤ)
      · simp [hz, hb, List.filter_cons] at ih ⊢
        exact ih
      · simp [hz, hb, List.filter_cons] at ih ⊢
        exact ih
    · simp [hz, List.filter_cons] at ih ⊢
      exact ih

theorem contribZ_pos (pts : List Pt) (u v : ℕ) :
    ∀ z ∈ contribZ pts u v, 0 < z := by
  intro z hz
  rcases List.mem_filterMap.mp hz with ⟨p, _, hp⟩
  by_cases hc : 0 < p.2.2 ∧ roundHE (p.1 / p.2.2) = (u : ℤ) ∧ roundHE (p.2.1 / p.2.2) = (v : ℤ)
  · rw [if_pos hc] at hp
    cases hp
    exact hc.1
  · rw [if_neg hc] at hp
    cases hp

theorem bind_idx_eq_contrib (p : Pt) {w h u v : ℕ} (hu : u < w) (hv : v < h) :
    ((if 0 < p.2.2 ∧ 0 ≤ (projPix p).1 ∧ (projPix p).1 < (w : ℤ) ∧
          0 ≤ (projPix p).2.1 ∧ (projPix p).2.1 < (h : ℤ)
      then some (projPix p) else none).bind fun q =>
        if q.2.1.toNat * w + q.1.toNat = v * w + u then some q.2.2 else none)
      = if 0 < p.2.2 ∧ roundHE (p.1 / p.2.2) = (u : ℤ) ∧ roundHE (p.2.1 / p.2.2) = (v : ℤ)
        then some p.2.2 else none := by
  simp only [projPix]
  set A := roundHE (p.1 / p.2.2) with hA
  set B := roundHE (p.2.1 / p.2.2) with hB
  by_cases hz : 0 < p.2.2
  · by_cases hb : 0 ≤ A ∧ A < (w : ℤ) ∧ 0 ≤ B ∧ B < (h : ℤ)
    · rw [if_pos ⟨hz, hb⟩, Option.some_bind]
      by_cases hidx : B.toNat * w + A.toNat = v * w + u
      · obtain ⟨h1, h2⟩ := (flatIdx_eq_iff hu (show A.toNat < w by omega)).mp hidx
        have hau : A = (u : ℤ) := by omega
        have hbv : B = (v : ℤ) := by omega
        rw [if_pos hidx, if_pos ⟨hz, hau, hbv⟩]
      · have hcond : ¬(0 < p.2.2 ∧ A = (u : ℤ) ∧ B = (v : ℤ)) := by
          rintro ⟨-, hau, hbv⟩
          exact hidx ((flatIdx_eq_iff hu (show A.toNat < w by omega)).mpr
            ⟨by omega, by omega⟩)
        rw [if_neg hidx, if_neg hcond]
    · have hcond : ¬(0 < p.2.2 ∧ A = (u : ℤ) ∧ B = (v : ℤ)) := by
        rintro ⟨-, hau, hbv⟩
        exact hb ⟨by omega, by omega, by omega, by omega⟩
      rw [if_neg (fun hc => hb hc.2), Option.none_bind, if_neg hcond]
  · rw [if_neg (fun hc => hz hc.1), Option.none_bind, if_neg (fun hc => hz hc.1)]

theorem dFlat_eq_contrib (pts : List Pt) {w h u v : ℕ} (hu : u < w) (hv : v < h) :
    dFlat pts w h (v * w + u) = (contribZ pts u v).minimum := by
  unfold dFlat contribZ
  rw [maskedPix_eq_filterMap, List.filterMap_filterMap]
  exact congrArg List.minimum
    (List.filterMap_congr fun p _ => bind_idx_eq_contrib p hu hv)

theorem pixGrid_succ (h w : ℕ) :
    pixGrid (h + 1) w = pixGrid h w ++ ((List.range w).map fun x => (h, x)) := by
  unfold pixGrid
  rw [List.range_succ, List.flatMap_append]
  simp

theorem mem_pixGrid {h w : ℕ} {p : ℕ × ℕ} :
    p ∈ pixGrid h w ↔ p.1 < h ∧ p.2 < w := by
  unfold pixGrid
  constructor
  · intro hp
    rcases List.mem_flatMap.mp hp with ⟨y, hy, hyp⟩
    rcases List.mem_map.mp hyp with ⟨x, hx, rfl⟩
    exact ⟨List.mem_range.mp hy, List.mem_range.mp hx⟩
  · rintro ⟨h1, h2⟩
    exact List.mem_flatMap.mpr ⟨p.1, List.mem_range.mpr h1,
      List.mem_map.mpr ⟨p.2, List.mem_range.mpr h2, rfl⟩⟩

theorem pixGrid_pairwise (h w : ℕ) : (pixGrid h w).Pairwise pixLt := by
  induction h with
  | zero => exact List.Pairwise.nil
  | succ n ih =>
    rw [pixGrid_succ, List.pairwise_append]
    refine ⟨ih, ?_, ?_⟩
    · rw [List.pairwise_map]
      exact (List.pairwise_lt_range w).imp fun hxy => Or.inr ⟨rfl, hxy⟩
    · intro a ha b hb
      rcases List.mem_map.mp hb with ⟨x, -, rfl⟩
      exact Or.inl (mem_pixGrid.mp ha).1

theorem mem_maskIdx {h w : ℕ} {mask : ℕ → ℕ → Bool} {y x : ℕ} :
    (y, x) ∈ maskIdx h w mask ↔ y < h ∧ x < w ∧ mask y x = true := by
  unfold maskIdx
  rw [List.mem_filter, mem_pixGrid]
  tauto

theorem zip_mul_maps {α : Type} (l : List α) (f g k : α → ℚ) :
    (List.zipWith (· * ·) (l.map f) (l.map k)).zip
      ((List.zipWith (· * ·) (l.map g) (l.map k)).zip (l.map k))
      = l.map fun a => (f a * k a, g a * k a, k a) := by
  induction l with
  | nil => rfl
  | cons a t ih =>
    simp only [List.map_cons, List.zipWith_cons_cons, List.zip_cons_cons, ih]

theorem get_pts_from_eq_map (d : ℕ → ℕ → ℚ) (h w : ℕ) (mask : ℕ → ℕ → Bool) :
    Get_pts_from d h w mask = (maskIdx h w mask).map fun p =>
      ((p.2 : ℚ) * d p.1 p.2, (p.1 : ℚ) * d p.1 p.2, d p.1 p.2) := by
  unfold Get_pts_from
  exact zip_mul_maps (maskIdx h w mask) _ _ _

theorem range_filterMap_single {β : Type} (g : ℕ → Option β) {n u : ℕ} (hu : u < n)
    (hg : ∀ x, x ≠ u → g x = none) :
    (List.range n).filterMap g = (g u).toList := by
  induction n with
  | zero => omega
  | succ m ih =>
    rw [List.range_succ, List.filterMap_append]
    by_cases hum : u < m
    · rw [ih hum]
      have hm : g m = none := hg m (by omega)
      simp [hm]
    · have hu' : u = m := by omega
      subst hu'
      have h1 : (List.range u).filterMap g = [] :=
        List.filterMap_eq_nil_iff.mpr fun x hx =>
          hg x (Nat.ne_of_lt (List.mem_range.mp hx))
      rw [h1, List.nil_append]
      cases hgu : g u <;> simp [List.filterMap_cons, hgu]

theorem pixGrid_filterMap_single {β : Type} (g : ℕ × ℕ → Option β) {h w v u : ℕ}
    (hv : v < h) (hu : u < w) (hg : ∀ p, p ≠ (v, u) → g p = none) :
    (pixGrid h w).filterMap g = (g (v, u)).toList := by
  induction h with
  | zero => omega
  | succ m ih =>
    rw [pixGrid_succ, List.filterMap_append]
    by_cases hvm : v < m
    · rw [ih hvm]
      have h2 : (((List.range w).map fun x => (m, x)).filterMap g) = [] := by
        refine List.filterMap_eq_nil_iff.mpr fun p hp => ?_
        rcases List.mem_map.mp hp with ⟨x, -, rfl⟩
        refine hg _ fun he => ?_
        rw [Prod.mk.injEq] at he
        omega
      simp [h2]
    · have hv' : v = m := by omega
      subst hv'
      have h1 : (pixGrid v w).filterMap g = [] := by
        refine List.filterMap_eq_nil_iff.mpr fun p hp => ?_
        have hlt := (mem_pixGrid.mp hp).1
        refine hg p fun he => ?_
        rw [he] at hlt
        omega
      rw [h1, List.nil_append, List.filterMap_map]
      exact range_filterMap_single (fun x => g (v, x)) hu
        fun x hx => hg (v, x) (by simp [hx])

theorem contribZ_get_pts_from (d : ℕ → ℕ → ℚ) {w h u v : ℕ} (hv : v < h) (hu : u < w) :
    contribZ (Get_pts_from d h w fun _ _ => true) u v
      = if 0 < d v u then [d v u] else [] := by
  rw [get_pts_from_eq_map]
  unfold contribZ
  rw [List.filterMap_map]
  have hm : maskIdx h w (fun _ _ => true) = pixGrid h w := by
    unfold maskIdx
    simp
  rw [hm]
  have hpt : ∀ y x : ℕ, 0 < d y x →
      (roundHE ((x : ℚ) * d y x / d y x) = (x : ℤ) ∧
        roundHE ((y : ℚ) * d y x / d y x) = (y : ℤ)) := by
    intro y x hd0
    rw [mul_div_cancel_right₀ _ (ne_of_gt hd0), mul_div_cancel_right₀ _ (ne_of_gt hd0),
      roundHE_natCast, roundHE_natCast]
    exact ⟨rfl, rfl⟩
  have hsingle := pixGrid_filterMap_single
    (fun p => if 0 < d p.1 p.2 ∧ roundHE ((p.2 : ℚ) * d p.1 p.2 / d p.1 p.2) = (u : ℤ) ∧
        roundHE ((p.1 : ℚ) * d p.1 p.2 / d p.1 p.2) = (v : ℤ)
      then some (d p.1 p.2) else none) hv hu ?hnone
  case hnone =>
    rintro ⟨y, x⟩ hne
    refine if_neg fun hc => hne ?_
    obtain ⟨hd0, hru, hrv⟩ := hc
    obtain ⟨hx, hy⟩ := hpt y x hd0
    rw [hx] at hru
    rw [hy] at hrv
    have : x = u := by exact_mod_cast hru
    have : y = v := by exact_mod_cast hrv
    simp_all
  rw [show (fun p : ℕ × ℕ =>
      if 0 < d p.1 p.2 ∧ roundHE ((p.2 : ℚ) * d p.1 p.2 / d p.1 p.2) = (u : ℤ) ∧
          roundHE ((p.1 : ℚ) * d p.1 p.2 / d p.1 p.2) = (v : ℤ)
      then some (d p.1 p.2) else none)
      = ((fun p : Pt =>
          if 0 < p.2.2 ∧ roundHE (p.1 / p.2.2) = (u : ℤ) ∧ roundHE (p.2.1 / p.2.2) = (v : ℤ)
          then some p.2.2 else none) ∘ fun p : ℕ × ℕ =>
            ((p.2 : ℚ) * d p.1 p.2, (p.1 : ℚ) * d p.1 p.2, d p.1 p.2)) from rfl] at hsingle
  rw [hsingle]
  by_cases h0 : 0 < d v u
  · obtain ⟨hx, hy⟩ := hpt v u h0
    have happ : ((fun p : Pt =>
        if 0 < p.2.2 ∧ roundHE (p.1 / p.2.2) = (u : ℤ) ∧ roundHE (p.2.1 / p.2.2) = (v : ℤ)
        then some p.2.2 else none) ∘ fun p : ℕ × ℕ =>
          ((p.2 : ℚ) * d p.1 p.2, (p.1 : ℚ) * d p.1 p.2, d p.1 p.2)) (v, u)
        = some (d v u) := if_pos ⟨h0, hx, hy⟩
    rw [happ, if_pos h0]
    rfl
  · have happ : ((fun p : Pt =>
        if 0 < p.2.2 ∧ roundHE (p.1 / p.2.2) = (u : ℤ) ∧ roundHE (p.2.1 / p.2.2) = (v : ℤ)
        then some p.2.2 else none) ∘ fun p : ℕ × ℕ =>
          ((p.2 : ℚ) * d p.1 p.2, (p.1 : ℚ) * d p.1 p.2, d p.1 p.2)) (v, u)
        = none := if_neg fun hc => h0 hc.1
    rw [happ, if_neg h0]
    rfl

theorem perm_minimum {α : Type} [LinearOrder α] {l l' : List α} (hp : l.Perm l') :
    l.minimum = l'.minimum :=
  le_antisymm
    (List.le_minimum_of_forall_le fun _ ha => List.minimum_le_of_mem' (hp.mem_iff.mpr ha))
    (List.le_minimum_of_forall_le fun _ ha => List.minimum_le_of_mem' (hp.mem_iff.mp ha))

/-! Auxiliary facts about the intrinsic model. -/

theorem tan_atan2_pos {y x : ℝ} (hx : 0 < x) : Real.tan (atan2 y x) = y / x := by
  unfold atan2
  rw [if_pos hx, Real.tan_arctan]

theorem roundR_intCast (n : ℤ) : roundR (n : ℝ) = n := by
  unfold roundR
  norm_num

theorem compose_intrinsic_entries (f pp : ℝ × ℝ) :
    Compose_intrinsic f pp 0 0 = f.1 ∧ Compose_intrinsic f pp 1 1 = f.2 ∧
    Compose_intrinsic f pp 0 2 = pp.1 ∧ Compose_intrinsic f pp 1 2 = pp.2 := by
  unfold Compose_intrinsic
  norm_num

theorem adjust_intrinsic_closed_form (I : Matrix (Fin 3) (Fin 3) ℝ)
    {s : ℝ × ℝ} (ns : ℝ × ℝ) (hf1 : 0 < I 0 0) (hf2 : 0 < I 1 1)
    (hs1 : 0 < s.1) (hs2 : 0 < s.2) :
    Adjust_intrinsic I s ns
      = Compose_intrinsic (ns.1 * (I 0 0 / s.1), ns.2 * (I 1 1 / s.2))
          (ns.1 * (I 0 2 / s.1), ns.2 * (I 1 2 / s.2)) := by
  simp only [Adjust_intrinsic, Extract_intrinsic, Get_fov_from,
    Get_focal_length_from, Get_pp_rate_from, Get_pp_from]
  have ht1 : Real.tan (2 * atan2 (s.1 / 2) (I 0 0) / 2) = s.1 / 2 / I 0 0 := by
    rw [mul_div_cancel_left₀ _ (two_ne_zero : (2 : ℝ) ≠ 0), tan_atan2_pos hf1]
  have ht2 : Real.tan (2 * atan2 (s.2 / 2) (I 1 1) / 2) = s.2 / 2 / I 1 1 := by
    rw [mul_div_cancel_left₀ _ (two_ne_zero : (2 : ℝ) ≠ 0), tan_atan2_pos hf2]
  rw [ht1, ht2]
  have hs1' : s.1 ≠ 0 := ne_of_gt hs1
  have hs2' : s.2 ≠ 0 := ne_of_gt hs2
  have hf1' : I 0 0 ≠ 0 := ne_of_gt hf1
  have hf2' : I 1 1 ≠ 0 := ne_of_gt hf2
  have hfe : (ns.1 / (2 * (s.1 / 2 / I 0 0)), ns.2 / (2 * (s.2 / 2 / I 1 1)))
      = (ns.1 * (I 0 0 / s.1), ns.2 * (I 1 1 / s.2)) := by
    rw [Prod.mk.injEq]
    constructor <;> (field_simp; ring)
  rw [hfe]

end Camera_Process

/-- C2: for every point set and target size `(w, h)`, the value of the depth map
returned by `Get_depth_map_from` at an in-bounds pixel `(u, v)` is the minimum
`z` over all points with `z > 0` whose perspective-divided, rounded projection
lands on `(u, v)` (the contributing depths `contribZ`); a pixel with no
contributing point holds `0`; and every entry is non-negative (the `np.inf`
sentinel and any negative value are normalised to `0`). -/
theorem get_depth_map_from_is_pixelwise_min (pts : List Pt) (w h u v : ℕ)
    (hu : u < w) (hv : v < h) :
    (Camera_Process.contribZ pts u v = [] →
      Camera_Process.Get_depth_map_from pts w h v u = 0) ∧
    (Camera_Process.contribZ pts u v ≠ [] →
      Camera_Process.Get_depth_map_from pts w h v u ∈ Camera_Process.contribZ pts u v) ∧
    (∀ z ∈ Camera_Process.contribZ pts u v,
      Camera_Process.Get_depth_map_from pts w h v u ≤ z) ∧
    0 ≤ Camera_Process.Get_depth_map_from pts w h v u := by
  have hd := Camera_Process.dFlat_eq_contrib pts hu hv
  unfold Camera_Process.Get_depth_map_from
  rw [hd]
  by_cases hL : Camera_Process.contribZ pts u v = []
  · rw [hL]
    simp only [List.minimum_nil, WithTop.untop'_top]
    simp
  · obtain ⟨m, hm⟩ := WithTop.ne_top_iff_exists.mp
      (List.minimum_ne_top_of_ne_nil hL)
    obtain ⟨hmem, hle⟩ := List.minimum_eq_coe_iff.mp hm.symm
    have hmpos : 0 < m := Camera_Process.contribZ_pos pts u v m hmem
    rw [← hm, WithTop.untop'_coe]
    simp only [not_lt.mpr hmpos.le, if_neg, not_lt_of_lt hmpos]
    refine ⟨fun hc => absurd hc hL, fun _ => ?_, fun z hz => ?_, ?_⟩
    · simpa [not_lt.mpr hmpos.le] using hmem
    · simpa [not_lt.mpr hmpos.le] using hle z hz
    · simp [not_lt.mpr hmpos.le, hmpos.le]

/-- Witness for C2 at a concrete input: two points project to pixel `(0, 0)` of a
`4 × 4` map with depths `1` and `5`; the pixel holds their minimum. -/
theorem get_depth_map_from_is_pixelwise_min_witness :
    (0 : ℕ) < 4 ∧
    Camera_Process.contribZ [((0 : ℚ), (0 : ℚ), (1 : ℚ)), ((0 : ℚ), (0 : ℚ), (5 : ℚ))] 0 0 ≠ [] ∧
    Camera_Process.Get_depth_map_from
      [((0 : ℚ), (0 : ℚ), (1 : ℚ)), ((0 : ℚ), (0 : ℚ), (5 : ℚ))] 4 4 0 0 = 1 := by
  have h := get_depth_map_from_is_pixelwise_min
    [((0 : ℚ), (0 : ℚ), (1 : ℚ)), ((0 : ℚ), (0 : ℚ), (5 : ℚ))] 4 4 0 0
    (by norm_num) (by norm_num)
  have hc : Camera_Process.contribZ
      [((0 : ℚ), (0 : ℚ), (1 : ℚ)), ((0 : ℚ), (0 : ℚ), (5 : ℚ))] 0 0 = [1, 5] := by
    norm_num [Camera_Process.contribZ, roundHE_def, List.filterMap_cons]
  refine ⟨by norm_num, ?_, ?_⟩
  · rw [hc]
    simp
  · norm_num [Camera_Process.Get_depth_map_from, Camera_Process.dFlat,
      Camera_Process.maskedPix, Camera_Process.visiblePts, Camera_Process.projPix,
      roundHE_def, List.filter_cons, List.filterMap_cons, List.minimum_cons,
      List.minimum_singleton]

/-- C8: `Get_depth_map_from` is invariant under permutation of the input point
set — the per-pixel occlusion resolution is an order-independent minimum
reduction. -/
theorem get_depth_map_from_perm_invariant (pts pts' : List Pt)
    (hp : pts.Perm pts') (w h : ℕ) :
    Camera_Process.Get_depth_map_from pts w h
      = Camera_Process.Get_depth_map_from pts' w h := by
  funext v u
  unfold Camera_Process.Get_depth_map_from Camera_Process.dFlat
    Camera_Process.maskedPix Camera_Process.visiblePts
  rw [Camera_Process.perm_minimum
    ((((hp.filter _).map Camera_Process.projPix).filter _).filterMap _)]

/-- Witness for C8: two points that land on the same pixel, with depths `1.0`
and `5.0`, yield depth `1.0` there regardless of the order they are given in. -/
theorem get_depth_map_from_perm_invariant_witness :
    Camera_Process.Get_depth_map_from
        [((0 : ℚ), (0 : ℚ), (1 : ℚ)), ((0 : ℚ), (0 : ℚ), (5 : ℚ))] 4 4
      = Camera_Process.Get_depth_map_from
        [((0 : ℚ), (0 : ℚ), (5 : ℚ)), ((0 : ℚ), (0 : ℚ), (1 : ℚ))] 4 4 :=
  get_depth_map_from_perm_invariant _ _
    (List.Perm.swap ((0 : ℚ), (0 : ℚ), (5 : ℚ)) ((0 : ℚ), (0 : ℚ), (1 : ℚ)) []) 4 4

/-- C6: `Get_pts_from` (back-projection) emits, for every valid pixel `(x, y)` of
the mask — in particular every pixel with depth `d > 0` — the point
`(x·d, y·d, d)`, exactly one point per valid pixel, in row-major order
(`maskIdx` enumerates valid pixels scanning `y` then `x`, is strictly
lexicographically ordered, and contains exactly the in-bounds mask-true
pixels). -/
theorem get_pts_from_characterization (d : ℕ → ℕ → ℚ) (h w : ℕ)
    (mask : ℕ → ℕ → Bool) :
    Camera_Process.Get_pts_from d h w mask
        = (Camera_Process.maskIdx h w mask).map (fun p =>
            ((p.2 : ℚ) * d p.1 p.2, (p.1 : ℚ) * d p.1 p.2, d p.1 p.2)) ∧
    (∀ y x, (y, x) ∈ Camera_Process.maskIdx h w mask ↔
        y < h ∧ x < w ∧ mask y x = true) ∧
    (Camera_Process.maskIdx h w mask).Pairwise Camera_Process.pixLt :=
  ⟨Camera_Process.get_pts_from_eq_map d h w mask,
   fun _ _ => Camera_Process.mem_maskIdx,
   (Camera_Process.pixGrid_pairwise h w).filter _⟩

/-- C3: for a depth map `d` of shape `(h, w)` with non-negative entries,
forward-projecting the back-projection at the same size reproduces `d` exactly
at every in-bounds pixel: each pixel with `d > 0` yields the single point
`(x·d, y·d, d)` that projects back onto its own pixel, and zero-depth pixels
contribute nothing and stay `0`. -/
theorem backproject_forward_project_roundtrip (d : ℕ → ℕ → ℚ) (w h : ℕ)
    (hd : ∀ v u, v < h → u < w → 0 ≤ d v u) (v u : ℕ) (hv : v < h) (hu : u < w) :
    Camera_Process.Get_depth_map_from
      (Camera_Process.Get_pts_from d h w fun _ _ => true) w h v u = d v u := by
  unfold Camera_Process.Get_depth_map_from
  rw [Camera_Process.dFlat_eq_contrib _ hu hv,
    Camera_Process.contribZ_get_pts_from d hv hu]
  by_cases h0 : 0 < d v u
  · rw [if_pos h0]
    simp [List.minimum_singleton, WithTop.untop'_coe, not_lt.mpr h0.le]
  · rw [if_neg h0]
    have h00 : d v u = 0 := le_antisymm (not_lt.mp h0) (hd v u hv hu)
    simp [h00]

/-- Witness for C3: the `2 × 2` depth map `d(v, u) = 2v + u` (entries `0,1,2,3`)
round-trips through back-projection and forward projection; checked at pixel
`(1, 1)`. -/
theorem backproject_forward_project_roundtrip_witness :
    (1 : ℕ) < 2 ∧
    Camera_Process.Get_depth_map_from
      (Camera_Process.Get_pts_from (fun v u => (v : ℚ) * 2 + (u : ℚ)) 2 2
        fun _ _ => true) 2 2 1 1 = 3 := by
  have h := backproject_forward_project_roundtrip
    (fun v u => (v : ℚ) * 2 + (u : ℚ)) 2 2
    (by intro v u _ _; positivity) 1 1 (by norm_num) (by norm_num)
  refine ⟨by norm_num, ?_⟩
  rw [h]
  norm_num

/-- C5: intrinsic adjustment composes transitively — for an intrinsic with
positive focal lengths and positive sizes, adjusting `S1 → S2` and then
`S2 → S3` equals adjusting `S1 → S3` directly (exactly, over ℝ): `adjust`
preserves the field of view and the principal-point rate while rescaling
focal length and principal point. -/
theorem adjust_intrinsic_transitive (I : Matrix (Fin 3) (Fin 3) ℝ)
    (S1 S2 S3 : ℝ × ℝ) (hf1 : 0 < I 0 0) (hf2 : 0 < I 1 1)
    (h11 : 0 < S1.1) (h12 : 0 < S1.2) (h21 : 0 < S2.1) (h22 : 0 < S2.2)
    (h31 : 0 < S3.1) (h32 : 0 < S3.2) :
    Camera_Process.Adjust_intrinsic (Camera_Process.Adjust_intrinsic I S1 S2) S2 S3
      = Camera_Process.Adjust_intrinsic I S1 S3 := by
  obtain ⟨e1, e2, e3, e4⟩ := Camera_Process.compose_intrinsic_entries
    (S2.1 * (I 0 0 / S1.1), S2.2 * (I 1 1 / S1.2))
    (S2.1 * (I 0 2 / S1.1), S2.2 * (I 1 2 / S1.2))
  rw [Camera_Process.adjust_intrinsic_closed_form I S2 hf1 hf2 h11 h12]
  rw [Camera_Process.adjust_intrinsic_closed_form _ S3
    (by rw [e1]; exact mul_pos h21 (div_pos hf1 h11))
    (by rw [e2]; exact mul_pos h22 (div_pos hf2 h12)) h21 h22]
  rw [Camera_Process.adjust_intrinsic_closed_form I S3 hf1 hf2 h11 h12]
  rw [e1, e2, e3, e4]
  have h21' : S2.1 ≠ 0 := ne_of_gt h21
  have h22' : S2.2 ≠ 0 := ne_of_gt h22
  have h11' : S1.1 ≠ 0 := ne_of_gt h11
  have h12' : S1.2 ≠ 0 := ne_of_gt h12
  have hfe : (S3.1 * (S2.1 * (I 0 0 / S1.1) / S2.1), S3.2 * (S2.2 * (I 1 1 / S1.2) / S2.2))
      = (S3.1 * (I 0 0 / S1.1), S3.2 * (I 1 1 / S1.2)) := by
    rw [Prod.mk.injEq]
    constructor <;> (field_simp; ring)
  have hpe : (S3.1 * (S2.1 * (I 0 2 / S1.1) / S2.1), S3.2 * (S2.2 * (I 1 2 / S1.2) / S2.2))
      = (S3.1 * (I 0 2 / S1.1), S3.2 * (I 1 2 / S1.2)) := by
    rw [Prod.mk.injEq]
    constructor <;> (field_simp; ring)
  rw [hfe, hpe]

/-- Witness for C5: the identity intrinsic, adjusted `(1,1) → (2,2) → (4,4)`,
equals the direct adjustment `(1,1) → (4,4)`. -/
theorem adjust_intrinsic_transitive_witness :
    (0 : ℝ) < (!![(1 : ℝ), 0, 0; 0, 1, 0; 0, 0, 1] : Matrix (Fin 3) (Fin 3) ℝ) 0 0 ∧
    Camera_Process.Adjust_intrinsic
        (Camera_Process.Adjust_intrinsic !![(1 : ℝ), 0, 0; 0, 1, 0; 0, 0, 1]
          (1, 1) (2, 2)) (2, 2) (4, 4)
      = Camera_Process.Adjust_intrinsic !![(1 : ℝ), 0, 0; 0, 1, 0; 0, 0, 1] (1, 1) (4, 4) :=
  ⟨by norm_num,
   adjust_intrinsic_transitive _ _ _ _ (by norm_num) (by norm_num) (by norm_num)
     (by norm_num) (by norm_num) (by norm_num) (by norm_num) (by norm_num)⟩

/-- C7 counterexample: at `fov = π/2` per axis and focal length `7/5`, the code
(`Get_size_from`) returns width `2 * round(tan(π/4) * 7/5) = 2 * round(1.4) = 2`,
while the nearest integer to `2 * tan(fov/2) * f = 2.8` is `3`: the returned
value differs from `2.8` by more than `1/2`, so it is not the claimed nearest
integer. -/
theorem get_size_from_not_nearest_int :
    (Camera_Process.Get_size_from (Real.pi / 2, Real.pi / 2) (7/5, 7/5)).1 = 2 ∧
    (1/2 : ℝ) < |2 * Real.tan (Real.pi / 2 / 2) * (7/5) - 2| := by
  have hq : Real.pi / 2 / 2 = Real.pi / 4 := by ring
  have htan : Real.tan (Real.pi / 2 / 2) = 1 := by rw [hq, Real.tan_pi_div_four]
  constructor
  · simp only [Camera_Process.Get_size_from]
    rw [htan]
    have h75 : roundR ((1 : ℝ) * (7/5)) = 1 := by
      have he : (1 : ℝ) * (7/5) = 7/5 := by norm_num
      have hfl : ⌊(7/5 : ℝ)⌋ = 1 := by norm_num [Int.floor_eq_iff]
      rw [he]
      unfold roundR
      rw [hfl]
      norm_num
    rw [h75]
    norm_num
  · rw [htan]
    have he : (2 : ℝ) * 1 * (7/5) - 2 = 4/5 := by norm_num
    rw [he, abs_of_pos (by norm_num)]
    norm_num

/-- C7 (amended): `Get_size_from` returns, per axis, twice the nearest integer
(ties to even) to `tan(fov/2) * f` — an always-even pixel count — rather than
the nearest integer to `2 * tan(fov/2) * f`; consequently it inverts
`Get_focal_length_from` exactly on even sizes `2k` whenever `tan(fov/2) ≠ 0`. -/
theorem get_size_from_even_roundtrip (fov : ℝ × ℝ) (k1 k2 : ℤ)
    (ht1 : Real.tan (fov.1 / 2) ≠ 0) (ht2 : Real.tan (fov.2 / 2) ≠ 0) :
    Camera_Process.Get_size_from fov
        (Camera_Process.Get_focal_length_from fov
          (((2 * k1 : ℤ) : ℝ), ((2 * k2 : ℤ) : ℝ)))
      = (2 * k1, 2 * k2) := by
  simp only [Camera_Process.Get_size_from, Camera_Process.Get_focal_length_from]
  have h1 : Real.tan (fov.1 / 2) * (((2 * k1 : ℤ) : ℝ) / (2 * Real.tan (fov.1 / 2)))
      = ((k1 : ℤ) : ℝ) := by
    push_cast
    field_simp
    ring
  have h2 : Real.tan (fov.2 / 2) * (((2 * k2 : ℤ) : ℝ) / (2 * Real.tan (fov.2 / 2)))
      = ((k2 : ℤ) : ℝ) := by
    push_cast
    field_simp
    ring
  rw [h1, h2, Camera_Process.roundR_intCast, Camera_Process.roundR_intCast]

/-- Witness for C7's amended claim: `fov = π/2`, even size `(4, 6)`; the focal
length `size / (2 tan(π/4))` is mapped back to exactly `(4, 6)`. -/
theorem get_size_from_even_roundtrip_witness :
    Real.tan (Real.pi / 2 / 2) ≠ 0 ∧
    Camera_Process.Get_size_from (Real.pi / 2, Real.pi / 2)
        (Camera_Process.Get_focal_length_from (Real.pi / 2, Real.pi / 2)
          ((4 : ℝ), (6 : ℝ)))
      = (4, 6) := by
  have hq : Real.pi / 2 / 2 = Real.pi / 4 := by ring
  have htan : Real.tan (Real.pi / 2 / 2) = 1 := by rw [hq, Real.tan_pi_div_four]
  have hne : Real.tan (Real.pi / 2 / 2) ≠ 0 := by rw [htan]; norm_num
  refine ⟨hne, ?_⟩
  have h := get_size_from_even_roundtrip (Real.pi / 2, Real.pi / 2) 2 3 hne hne
  norm_num at h
  exact h

/-- C1 (code bug): for the single extrinsic `E` (identity rotation, translation
`(5, 0, 0)`) and the single 3-component point `(1, 2, 3)`, `Apply_extrinsic`
with `invert = False` returns the 4-component row `(1, 2, 3, 5)` — each
component `pts[n, k]` scaled by the column sum `E[0, k] + E[1, k] + E[2, k]` —
instead of the rigid transformation `R p + t = (6, 2, 3)` the claim states: the
einsum `"bjk, nk -> bnk"` contracts the row index `j` and keeps `k` un-summed. -/
theorem apply_extrinsic_einsum_bug :
    Space_process.Apply_extrinsic (.vec3 [(1, 2, 3)])
        [!![1, 0, 0, 5; 0, 1, 0, 0; 0, 0, 1, 0; 0, 0, 0, 1]] false
      = [[![1, 2, 3, 5]]] ∧
    Space_process.Apply_extrinsic_spec
        !![1, 0, 0, 5; 0, 1, 0, 0; 0, 0, 1, 0; 0, 0, 0, 1] (1, 2, 3) = ![6, 2, 3] ∧
    ¬∀ i : Fin 3,
      (![(1 : ℚ), 2, 3, 5]) i.castSucc
        = Space_process.Apply_extrinsic_spec
            !![1, 0, 0, 5; 0, 1, 0, 0; 0, 0, 1, 0; 0, 0, 0, 1] (1, 2, 3) i := by
  refine ⟨?_, ?_, ?_⟩
  · simp only [Space_process.Apply_extrinsic, Space_process.PtsInput.lift,
      Bool.false_eq_true, if_false, List.map_cons, List.map_nil]
    congr 1
    congr 1
    funext k
    fin_cases k <;>
      norm_num [Convert.To_homog, Matrix.vecHead, Matrix.vecTail]
  · funext i
    fin_cases i <;>
      norm_num [Space_process.Apply_extrinsic_spec, Convert.To_homog,
        Fin.sum_univ_four]
  · intro hall
    have h0 := hall 0
    norm_num [Space_process.Apply_extrinsic_spec, Convert.To_homog,
      Fin.sum_univ_four] at h0

/-- C10: `Hand_change` with the unsupported reverse mode `"R2L"` fails with the
assertion error for every input (points or transform) and never returns a
result, while the supported `"L2R"` mode always returns one. -/
theorem hand_change_reverse_mode_fails (obj : Space_process.HandObj) :
    Space_process.Hand_change obj Space_process.HandMode.R2L
        = Except.error "AssertionError: mode: R2L is not yet" ∧
    ∃ r, Space_process.Hand_change obj Space_process.HandMode.L2R = Except.ok r := by
  refine ⟨rfl, ?_⟩
  cases obj
  · exact ⟨_, rfl⟩
  · exact ⟨_, rfl⟩

/-- C9: intrinsic `compose` and extrinsic `compose` succeed exactly when the
ranks of the two operands agree and — for batched operands — the batch sizes
agree; otherwise they raise `ValueError` immediately. Matching unbatched
operands never trip either guard (`Compose_intrinsicB` compares the base
lengths 2 = 2; `Compose_extrinsic` skips the `shape[0]` comparison — whose base
lengths 4 and 3 differ — unless `ndim >= 2`). -/
theorem compose_shape_guards :
    (∀ f pp : BArr (ℚ × ℚ),
      (Camera_Process.Compose_intrinsicB f pp).isOk = true
        ↔ (f.ndim = pp.ndim ∧
           ∀ lf lpp, f = BArr.batch lf → pp = BArr.batch lpp →
             lf.length = lpp.length)) ∧
    (∀ (q : BArr Space_process.Quat) (tf : BArr (ℚ × ℚ × ℚ)),
      (Space_process.Compose_extrinsic q tf).isOk = true
        ↔ (q.ndim = tf.ndim ∧
           ∀ lq ltf, q = BArr.batch lq → tf = BArr.batch ltf →
             lq.length = ltf.length)) := by
  constructor
  · intro f pp
    cases f with
    | single fv =>
      cases pp with
      | single pv =>
        simp [Camera_Process.Compose_intrinsicB, BArr.ndim, BArr.shape0, Except.isOk, Except.toBool]
      | batch pl =>
        simp [Camera_Process.Compose_intrinsicB, BArr.ndim, BArr.shape0, Except.isOk, Except.toBool]
    | batch fl =>
      cases pp with
      | single pv =>
        simp [Camera_Process.Compose_intrinsicB, BArr.ndim, BArr.shape0, Except.isOk, Except.toBool]
      | batch pl =>
        by_cases hlen : fl.length = pl.length <;>
          simp [Camera_Process.Compose_intrinsicB, BArr.ndim, BArr.shape0,
            Except.isOk, Except.toBool, hlen]
  · intro q tf
    cases q with
    | single qv =>
      cases tf with
      | single tv =>
        simp [Space_process.Compose_extrinsic, BArr.ndim, BArr.shape0, Except.isOk, Except.toBool]
      | batch tl =>
        simp [Space_process.Compose_extrinsic, BArr.ndim, BArr.shape0, Except.isOk, Except.toBool]
    | batch ql =>
      cases tf with
      | single tv =>
        simp [Space_process.Compose_extrinsic, BArr.ndim, BArr.shape0, Except.isOk, Except.toBool]
      | batch tl =>
        by_cases hlen : ql.length = tl.length <;>
          simp [Space_process.Compose_extrinsic, BArr.ndim, BArr.shape0,
            Except.isOk, Except.toBool, hlen]

/-- C4 counterexample: for input rows `[(1,1,1), (0,0,0)]` at precision `0` the
code returns indices `[1, 0]` — `np.unique` orders first occurrences by sorted
quantised row — whereas the claim ("listed in order of first appearance")
requires `[0, 1]`; the claimed behaviour (`Remove_duplicate_claimed`) and the
implementation disagree on this input. -/
theorem remove_duplicate_sorted_not_appearance_order :
    (Space_process.Remove_duplicate [(1, 1, 1), (0, 0, 0)] 0).2 = [1, 0] ∧
    (Space_process.Remove_duplicate_claimed [(1, 1, 1), (0, 0, 0)] 0).2 = [0, 1] ∧
    Space_process.Remove_duplicate [(1, 1, 1), (0, 0, 0)] 0
      ≠ Space_process.Remove_duplicate_claimed [(1, 1, 1), (0, 0, 0)] 0 := by
  have hkeys : [((1 : ℚ), (1 : ℚ), (1 : ℚ)), (0, 0, 0)].map (Space_process.quantizeRow 0)
      = [(1, 1, 1), (0, 0, 0)] := by
    norm_num [Space_process.quantizeRow, roundHE_def]
  refine ⟨?_, ?_, ?_⟩
  · simp only [Space_process.Remove_duplicate]
    rw [hkeys]
    decide
  · simp only [Space_process.Remove_duplicate_claimed]
    rw [hkeys]
    decide
  · simp only [Space_process.Remove_duplicate, Space_process.Remove_duplicate_claimed]
    rw [hkeys]
    decide

namespace Space_process

theorem mem_firstOccIdx {keys : List (ℤ × ℤ × ℤ)} {i : ℕ} :
    i ∈ firstOccIdx keys ↔
      i < keys.length ∧ ∀ j < i, keys.getD j (0, 0, 0) ≠ keys.getD i (0, 0, 0) := by
  unfold firstOccIdx
  rw [List.mem_filter, List.mem_range]
  simp

theorem pairwise_firstOccIdx (keys : List (ℤ × ℤ × ℤ)) :
    (firstOccIdx keys).Pairwise fun i j =>
      keys.getD i (0, 0, 0) ≠ keys.getD j (0, 0, 0) := by
  have h := (List.pairwise_lt_range keys.length).filter
    (fun i => decide (∀ j < i, keys.getD j (0, 0, 0) ≠ keys.getD i (0, 0, 0)))
  refine h.imp_of_mem ?_
  intro a b ha hb hab
  have hbp := (mem_firstOccIdx.mp hb).2
  exact hbp a hab

end Space_process

/-- C4 (amended): `Remove_duplicate` quantises each coordinate (scale by
`10^precision`, round half-to-even, cast to integer) and returns exactly the
rows that are the first occurrence of each distinct quantised row, with their
indices — but listed in lexicographically increasing order of the quantised
rows (the order `np.unique` sorts into), not in order of first appearance in
the input; for the input `[[0,0,0],[0,0,0.0001],[1,1,1]]` with precision 2 the
selected indices are `[0, 2]`. -/
theorem remove_duplicate_characterization :
    (∀ (data : List (ℚ × ℚ × ℚ)) (precision : ℕ),
      (Space_process.Remove_duplicate data precision).1
        = (Space_process.Remove_duplicate data precision).2.map fun i =>
            data.getD i (0, 0, 0)) ∧
    (∀ (data : List (ℚ × ℚ × ℚ)) (precision : ℕ) (i : ℕ),
      i ∈ (Space_process.Remove_duplicate data precision).2 ↔
        (i < data.length ∧ ∀ j < i,
          (data.map (Space_process.quantizeRow precision)).getD j (0, 0, 0)
            ≠ (data.map (Space_process.quantizeRow precision)).getD i (0, 0, 0))) ∧
    (∀ (data : List (ℚ × ℚ × ℚ)) (precision : ℕ),
      ((Space_process.Remove_duplicate data precision).2.map fun i =>
          (data.map (Space_process.quantizeRow precision)).getD i (0, 0, 0)).Pairwise
        Space_process.rowLt) ∧
    (Space_process.Remove_duplicate [(0, 0, 0), (0, 0, 1/10000), (1, 1, 1)] 2).2
      = [0, 2] := by
  refine ⟨?_, ?_, ?_, ?_⟩
  · intro data precision
    simp only [Space_process.Remove_duplicate, List.map_map]
    rfl
  · intro data precision i
    simp only [Space_process.Remove_duplicate]
    constructor
    · intro hi
      rcases List.mem_map.mp hi with ⟨s, hs, rfl⟩
      have hs' := (List.perm_insertionSort Space_process.pairLe _).subset hs
      rcases List.mem_map.mp hs' with ⟨i0, hi0, rfl⟩
      have h2 := Space_process.mem_firstOccIdx.mp hi0
      rw [List.length_map] at h2
      exact h2
    · rintro ⟨hlen, hne⟩
      have hi0 : i ∈ Space_process.firstOccIdx
          (data.map (Space_process.quantizeRow precision)) :=
        Space_process.mem_firstOccIdx.mpr (by rw [List.length_map]; exact ⟨hlen, hne⟩)
      refine List.mem_map.mpr
        ⟨((data.map (Space_process.quantizeRow precision)).getD i (0, 0, 0), i), ?_, rfl⟩
      exact (List.perm_insertionSort Space_process.pairLe _).mem_iff.mpr
        (List.mem_map.mpr ⟨i, hi0, rfl⟩)
  · intro data precision
    simp only [Space_process.Remove_duplicate, List.map_map]
    rw [List.pairwise_map]
    have hsorted := List.sorted_insertionSort Space_process.pairLe
      ((Space_process.firstOccIdx (data.map (Space_process.quantizeRow precision))).map
        fun i => ((data.map (Space_process.quantizeRow precision)).getD i (0, 0, 0), i))
    have hne : ((Space_process.firstOccIdx
        (data.map (Space_process.quantizeRow precision))).map
          fun i => ((data.map (Space_process.quantizeRow precision)).getD i (0, 0, 0), i)).Pairwise
        fun a b : (ℤ × ℤ × ℤ) × ℕ => a.1 ≠ b.1 := by
      rw [List.pairwise_map]
      exact Space_process.pairwise_firstOccIdx _
    have hne' := ((List.perm_insertionSort Space_process.pairLe _).pairwise_iff
      (fun h => Ne.symm h)).mpr hne
    have hfst : ∀ s ∈ (((Space_process.firstOccIdx
        (data.map (Space_process.quantizeRow precision))).map
          fun i => ((data.map (Space_process.quantizeRow precision)).getD i (0, 0, 0), i)).insertionSort
            Space_process.pairLe),
        s.1 = (data.map (Space_process.quantizeRow precision)).getD s.2 (0, 0, 0) := by
      intro s hs
      rcases List.mem_map.mp
        ((List.perm_insertionSort Space_process.pairLe _).subset hs) with ⟨i, hi, rfl⟩
      rfl
    refine (hsorted.and hne').imp_of_mem ?_
    intro a b ha hb hab
    simp only [Function.comp_apply]
    rw [← hfst a ha, ← hfst b hb]
    rcases hab.1 with hlt | heq
    · exact hlt
    · exact absurd heq hab.2
  · have hkeys : [((0 : ℚ), (0 : ℚ), (0 : ℚ)), (0, 0, 1/10000), (1, 1, 1)].map
        (Space_process.quantizeRow 2) = [(0, 0, 0), (0, 0, 0), (100, 100, 100)] := by
      norm_num [Space_process.quantizeRow, roundHE_def]
    simp only [Space_process.Remove_duplicate]
    rw [hkeys]
    decide
